import Mathlib

/-!
Verification of the Oware rules engine and search engine
(`board.py`, `rules.py`, `cpu.py`, `game.py`).

The board is embedded as a structure holding the pit counts as a list of
naturals together with the two player scores.  Pure functions of the Python
source become Lean functions; the in-place mutations of `apply_move`,
`sow_from` and `game_end_sweep` become functions returning the new board.
-/

namespace Oware

/-- Board state: pit counts plus the two scores (`board.py`, class `Board`).
`pitsPerSide` and `initialStones` mirror the constructor arguments stored on
the Python object; `pits` is the list of per-pit stone counts. -/
structure Board where
  pitsPerSide : Nat
  initialStones : Nat
  pits : List Nat
  score0 : Nat
  score1 : Nat
  deriving Repr, DecidableEq

namespace Board

/-- `total_pits = pits_per_side * 2` (`board.py` line 78). -/
def totalPits (b : Board) : Nat := b.pitsPerSide * 2

/-- `Board.__init__`: a uniform board with `pits_per_side * 2` pits, each
holding `initial_stones`, and both scores zero. -/
def construct (pitsPerSide initialStones : Nat) : Board :=
  { pitsPerSide := pitsPerSide
    initialStones := initialStones
    pits := List.replicate (pitsPerSide * 2) initialStones
    score0 := 0
    score1 := 0 }

/-- `scores[player]` for the two valid players. -/
def score (b : Board) (player : Nat) : Nat :=
  if player = 0 then b.score0 else b.score1

/-- Update `scores[player] += n` for the two valid players. -/
def addScore (b : Board) (player : Nat) (n : Nat) : Board :=
  if player = 0 then { b with score0 := b.score0 + n }
  else { b with score1 := b.score1 + n }

end Board

/-- `rules.opponent`: `1 - p` (on the two valid players). -/
def opponent (p : Nat) : Nat := 1 - p

/-- `rules._owner_of` / `Board.pit_owner`: player 0 owns indices below
`pits_per_side`, player 1 the rest. -/
def ownerOf (idx pitsPerSide : Nat) : Nat :=
  if idx < pitsPerSide then 0 else 1

/-- `Board.pit_owner` (board.py lines 94-106). -/
def Board.pitOwner (b : Board) (idx : Nat) : Nat :=
  ownerOf idx b.pitsPerSide

/-- `Board.player_pit_indices`: `range(0, pps)` for player 0, and
`range(pps, total_pits)` otherwise. -/
def Board.playerPitIndices (b : Board) (player : Nat) : List Nat :=
  if player = 0 then List.range b.pitsPerSide
  else List.range' b.pitsPerSide b.pitsPerSide

/-- Sum of the pit counts of a list at a list of indices, as the Python
`sum(pits[i] for i in idxs)` generators. -/
def sumIdx (pits : List Nat) (idxs : List Nat) : Nat :=
  (idxs.map (fun i => pits.getD i 0)).sum

/-- `Board.total_stones_for_player`. -/
def Board.totalFor (b : Board) (player : Nat) : Nat :=
  sumIdx b.pits (b.playerPitIndices player)

/-- `Board.is_empty_side`. -/
def Board.isEmptySide (b : Board) (player : Nat) : Bool :=
  b.totalFor player = 0

/-- The sowing while-loop shared by `Board.sow_from` and `rules._sow_list`:
while seeds remain, advance to `(idx + 1) % len(pits)` and drop one stone.
Returns the index last written together with the updated pit list. -/
def sowLoop (pits : List Nat) (idx : Nat) : Nat → Nat × List Nat
  | 0 => (idx, pits)
  | seeds + 1 =>
    let idx2 := (idx + 1) % pits.length
    sowLoop (pits.set idx2 (pits.getD idx2 0 + 1)) idx2 seeds

/-- `rules._sow_list`: empty the start pit and sow its stones forward. -/
def sowList (pits : List Nat) (start : Nat) : Nat × List Nat :=
  let seeds := pits.getD start 0
  sowLoop (pits.set start 0) start seeds

/-- `Board.sow_from` (board.py lines 146-167): like `_sow_list` but with an
early return `(pit_index, 0)` on an empty pit, and additionally reporting the
stone count of the pit last written. -/
def boardSowFrom (pits : List Nat) (pitIndex : Nat) : (Nat × Nat) × List Nat :=
  let seeds := pits.getD pitIndex 0
  let emptied := pits.set pitIndex 0
  if seeds = 0 then ((pitIndex, 0), emptied)
  else
    let r := sowLoop emptied pitIndex seeds
    ((r.1, r.2.getD r.1 0), r.2)

/-- One backward step `(i - 1) % n` of the capture walk, written on naturals
as `(i + n - 1) % n`. -/
def backStep (n i : Nat) : Nat := (i + n - 1) % n

/-- The capture while-loop of `rules._capture_on_list` (and the identical
inline loop of `apply_move`, rules.py lines 171-182): capture the current pit
while it holds 2 or 3 stones, stepping backward, and stop on leaving the
opponent's territory.  `fuel` bounds the iteration count; callers pass
`pits.length`, which is shown sufficient below. -/
def captureLoop (opp pitsPerSide : Nat) : Nat → List Nat → Nat → Nat × List Nat
  | 0, pits, _ => (0, pits)
  | fuel + 1, pits, i =>
    let stones := pits.getD i 0
    if stones = 2 ∨ stones = 3 then
      let q := pits.set i 0
      let j := backStep pits.length i
      if ownerOf j pitsPerSide ≠ opp then (stones, q)
      else
        let r := captureLoop opp pitsPerSide fuel q j
        (stones + r.1, r.2)
    else (0, pits)

/-- `rules._capture_on_list`: run the capture chain when the last stone
landed on the opponent's side, otherwise capture nothing. -/
def captureOnList (pits : List Nat) (lastIdx mover pitsPerSide : Nat) :
    Nat × List Nat :=
  if ownerOf lastIdx pitsPerSide = opponent mover then
    captureLoop (opponent mover) pitsPerSide pits.length pits lastIdx
  else (0, pits)

/-- Opponent total after simulating sow plus capture from pit `m`, the
quantity both `legal_moves` and `apply_move` compute on a scratch copy. -/
def oppAfter (b : Board) (player m : Nat) : Nat :=
  let s := sowList b.pits m
  let c := captureOnList s.2 s.1 player b.pitsPerSide
  sumIdx c.2 (b.playerPitIndices (opponent player))

/-- `rules.legal_moves` (rules.py lines 96-125): non-empty own pits whose
simulated move leaves the opponent with stones; all non-empty own pits when
no such move exists. -/
def legalMoves (b : Board) (player : Nat) : List Nat :=
  let candidates :=
    (b.playerPitIndices player).filter (fun i => decide (0 < b.pits.getD i 0))
  let legal := candidates.filter (fun pit => decide (0 < oppAfter b player pit))
  if legal.isEmpty then candidates else legal

/-- The Grand Slam alternative scan of `apply_move` (rules.py lines 157-163):
some other non-empty own pit leaves the opponent with stones. -/
def feedingAlt (b : Board) (player pitIndex : Nat) : Bool :=
  ((b.playerPitIndices player).filter
      (fun i => decide (0 < b.pits.getD i 0) && decide (i ≠ pitIndex))).any
    (fun alt => decide (0 < oppAfter b player alt))

/-- `rules.apply_move` (rules.py lines 128-185).  Returns the success flag
together with the (possibly updated) board; validation failures, the Grand
Slam veto and `simulate_only` all leave the board unchanged. -/
def applyMove (b : Board) (player pitIndex : Nat) (simulateOnly : Bool) :
    Bool × Board :=
  if b.totalPits ≤ pitIndex then (false, b)
  else if b.pitOwner pitIndex ≠ player then (false, b)
  else if b.pits.getD pitIndex 0 = 0 then (false, b)
  else if oppAfter b player pitIndex = 0 ∧ feedingAlt b player pitIndex then
    (false, b)
  else if simulateOnly then (true, b)
  else
    let s := boardSowFrom b.pits pitIndex
    let c := captureOnList s.2 s.1.1 player b.pitsPerSide
    (true, Board.addScore { b with pits := c.2 } player c.1)

/-- `game.game_end_sweep` (game.py lines 12-47), print statements elided:
when either side is empty, credit each side's remaining pit total to that
side's own score and zero its pits, returning `true`; otherwise `false`. -/
def gameEndSweep (b : Board) : Bool × Board :=
  let t0 := b.totalFor 0
  let t1 := b.totalFor 1
  if t0 = 0 ∨ t1 = 0 then
    let b1 :=
      if 0 < t0 then
        { b with
          score0 := b.score0 + t0
          pits := (b.playerPitIndices 0).foldl (fun l i => l.set i 0) b.pits }
      else b
    let b2 :=
      if 0 < t1 then
        { b1 with
          score1 := b1.score1 + t1
          pits := (b.playerPitIndices 1).foldl (fun l i => l.set i 0) b1.pits }
      else b1
    (true, b2)
  else (false, b)

/-- `CPUPlayer._get_smart_move` (cpu.py lines 94-116): start from `legal[0]`
with best score `-1`, and for each legal move clone the board, apply it with
`simulate_only=True`, and keep the move when its score gain strictly exceeds
the best so far. -/
def getSmartMove (playerId : Nat) (b : Board) (legal : List Nat) : Nat :=
  (legal.foldl
    (fun st m =>
      let temp := (applyMove b playerId m true).2
      let gain : Int := (temp.score playerId : Int) - (b.score playerId : Int)
      if st.2 < gain then (m, gain) else st)
    (legal.headD 0, (-1 : Int))).1

/-- The mover's immediate capture from playing `m` for real: the score gain a
committed `apply_move` produces.  This is the quantity the spec's greedy tier
is meant to maximise. -/
def immediateCapture (b : Board) (player m : Nat) : Nat :=
  ((applyMove b player m false).2).score player - b.score player

/-- Extended integers modelling the Python floats `float('-inf')`,
`float('inf')` and the integer evaluation scores used by `_minimax`. -/
inductive XInt where
  | negInf
  | val (z : Int)
  | posInf
  deriving Repr, DecidableEq

/-- `a <= b` on extended integers. -/
def XInt.leB : XInt → XInt → Bool
  | .negInf, _ => true
  | _, .posInf => true
  | .val a, .val b => a ≤ b
  | .posInf, .negInf => false
  | .posInf, .val _ => false
  | .val _, .negInf => false

/-- `a < b` on extended integers. -/
def XInt.ltB (a b : XInt) : Bool := !(XInt.leB b a)

/-- Python `max` on extended integers. -/
def XInt.maxX (a b : XInt) : XInt := if XInt.ltB a b then b else a

/-- Python `min` on extended integers. -/
def XInt.minX (a b : XInt) : XInt := if XInt.ltB b a then b else a

/-- The minimax terminal value `scores[player_id] - scores[1 - player_id]`
(cpu.py line 137). -/
def evalBoard (pid : Nat) (b : Board) : Int :=
  (b.score pid : Int) - (b.score (1 - pid) : Int)

/-- `CPUPlayer._minimax` (cpu.py lines 118-170).  The sibling loops with
`break` are encoded as folds carrying a `stopped` flag (last state
component) that, once set by the `beta <= alpha` pruning test, makes the
remaining iterations no-ops; the state is
`(best value, best move, alpha-or-beta, stopped)`. -/
def minimax (pid : Nat) : Nat → Board → XInt → XInt → Bool → XInt × Option Nat
  | 0, b, _, _, _ => (XInt.val (evalBoard pid b), none)
  | d + 1, b, alpha, beta, maximizing =>
    let cur := if maximizing then pid else 1 - pid
    let legal := legalMoves b cur
    if legal.isEmpty ∨ 24 < b.score0 ∨ 24 < b.score1 then
      (XInt.val (evalBoard pid b), none)
    else if maximizing then
      let st := legal.foldl
        (fun st m =>
          if st.2.2.2 then st
          else
            let sim := (applyMove b cur m false).2
            let ev := (minimax pid d sim st.2.2.1 beta false).1
            let st1 := if XInt.ltB st.1 ev then (ev, some m, st.2.2.1, false) else st
            let alpha2 := XInt.maxX st1.2.2.1 ev
            (st1.1, st1.2.1, alpha2, XInt.leB beta alpha2))
        (XInt.negInf, none, alpha, false)
      (st.1, st.2.1)
    else
      let st := legal.foldl
        (fun st m =>
          if st.2.2.2 then st
          else
            let sim := (applyMove b cur m false).2
            let ev := (minimax pid d sim alpha st.2.2.1 true).1
            let st1 := if XInt.ltB ev st.1 then (ev, some m, st.2.2.1, false) else st
            let beta2 := XInt.minX st1.2.2.1 ev
            (st1.1, st1.2.1, beta2, XInt.leB beta2 alpha))
        (XInt.posInf, none, beta, false)
      (st.1, st.2.1)

/-- Outcome category of the Hard tier of `CPUPlayer.get_move`
(cpu.py lines 57-77): `-1` on an empty legal list, a uniform-random pick
when the pit stones sum to `total_pits * 4`, otherwise the minimax move, or
a uniform-random fallback when minimax returns no move. -/
inductive HardDecision where
  | noMove
  | randomOpening
  | search (m : Nat)
  | randomFallback
  deriving Repr, DecidableEq

/-- The Hard branch of `CPUPlayer.get_move`, with the `random.choice` calls
abstracted into the outcome categories `randomOpening`/`randomFallback`.
`max_depth` is 4 on Hard difficulty. -/
def hardDecision (pid : Nat) (b : Board) : HardDecision :=
  let legal := legalMoves b pid
  if legal.isEmpty then HardDecision.noMove
  else if b.pits.sum = b.totalPits * 4 then HardDecision.randomOpening
  else
    match (minimax pid 4 b XInt.negInf XInt.posInf true).2 with
    | some m => HardDecision.search m
    | none => HardDecision.randomFallback

/-- The claim's notion of "the board is still in its exact initial
configuration": every pit equals `initial_stones`.  Stated from the spec's
words, to be compared with the code's branch condition
`sum(pits) == total_pits * 4`. -/
def isInitialConfig (b : Board) : Prop :=
  ∀ i < b.pits.length, b.pits.getD i 0 = b.initialStones

instance (b : Board) : Decidable (isInitialConfig b) :=
  Nat.decidableBallLT _ _

/-- Boards reachable from `construct(pits_per_side, initial_stones)` by any
sequence of `apply_move` and `game_end_sweep` calls. -/
inductive Reached (pps s : Nat) : Board → Prop where
  | construct : Reached pps s (Board.construct pps s)
  | move (b : Board) (p i : Nat) (so : Bool) (hb : Reached pps s b) :
      Reached pps s ((applyMove b p i so).2)
  | sweep (b : Board) (hb : Reached pps s b) :
      Reached pps s ((gameEndSweep b).2)

/-- The spec's capture-chain example board: player 0 side `[0,0,0,1,0,3]`,
player 1 side `[0,0,2,0,0,0]`, both scores zero. -/
def exC1 : Board := ⟨6, 4, [0, 0, 0, 1, 0, 3, 0, 0, 2, 0, 0, 0], 0, 0⟩

/-- The spec's simple-capture example board: player 0 side `[0,0,0,0,0,1]`,
player 1 side `[1,2,0,0,0,0]`, both scores zero. -/
def exC7 : Board := ⟨6, 4, [0, 0, 0, 0, 0, 1, 1, 2, 0, 0, 0, 0], 0, 0⟩

/-- A board on which the greedy tier's claimed maximisation fails for the
CPU player 1: move 11 captures 2 stones while move 6 captures none, yet
move 6 is the first legal move. -/
def exC3 : Board := ⟨6, 4, [1, 2, 0, 0, 0, 0, 1, 0, 0, 0, 0, 1], 0, 0⟩

/-- The board after player 0 plays pit 0 from the standard opening: not the
initial configuration, but still holding `total_pits * 4` stones in its
pits since nothing was captured. -/
def exC4 : Board := (applyMove (Board.construct 6 4) 0 0 false).2

/-- The landing index of a committed sow from pit `m`: the first component
of `Board.sow_from`. -/
def landing (b : Board) (m : Nat) : Nat := (boardSowFrom b.pits m).1.1

/-- The pit list right after the committed sow from pit `m`, before capture
resolution. -/
def sownPits (b : Board) (m : Nat) : List Nat := (boardSowFrom b.pits m).2

/-! ### Basic list lemmas -/

lemma getD_set_eq (l : List Nat) (i v : Nat) (h : i < l.length) :
    (l.set i v).getD i 0 = v := by
  induction l generalizing i with
  | nil => simp at h
  | cons a t ih =>
    cases i with
    | zero => rfl
    | succ n => simpa using ih n (by simpa using h)

lemma getD_set_ne (l : List Nat) (i j v : Nat) (h : i ≠ j) :
    (l.set i v).getD j 0 = l.getD j 0 := by
  induction l generalizing i j with
  | nil => simp
  | cons a t ih =>
    cases i with
    | zero =>
      cases j with
      | zero => exact absurd rfl h
      | succ m => rfl
    | succ n =>
      cases j with
      | zero => rfl
      | succ m => simpa using ih n m (by omega)

lemma getD_pos_lt_length (l : List Nat) (i : Nat) (h : l.getD i 0 ≠ 0) :
    i < l.length := by
  by_contra hi
  exact h (List.getD_eq_default l 0 (by omega))

lemma sum_set_zero (l : List Nat) (i : Nat) :
    (l.set i 0).sum + l.getD i 0 = l.sum := by
  induction l generalizing i with
  | nil => simp
  | cons a t ih =>
    cases i with
    | zero => simp [Nat.add_comm]
    | succ n =>
      have hset : (a :: t).set (n + 1) 0 = a :: t.set n 0 := rfl
      rw [hset]
      simp only [List.sum_cons, List.getD_cons_succ]
      have := ih n
      omega

lemma sum_set_add (l : List Nat) (i v : Nat) (h : i < l.length) :
    (l.set i (l.getD i 0 + v)).sum = l.sum + v := by
  induction l generalizing i with
  | nil => simp at h
  | cons a t ih =>
    cases i with
    | zero => simp [Nat.add_assoc, Nat.add_comm, Nat.add_left_comm]
    | succ n =>
      have hset : (a :: t).set (n + 1) (t.getD n 0 + v) = a :: t.set n (t.getD n 0 + v) := rfl
      simp only [List.getD_cons_succ, hset, List.sum_cons]
      have := ih n (by simpa using h)
      omega

/-! ### Sowing lemmas -/

lemma sowLoop_length (s : Nat) :
    ∀ (pits : List Nat) (idx : Nat), (sowLoop pits idx s).2.length = pits.length := by
  induction s with
  | zero => intro pits idx; rfl
  | succ k ih =>
    intro pits idx
    simp only [sowLoop]
    rw [ih]
    exact List.length_set ..

lemma sowLoop_sum (s : Nat) :
    ∀ (pits : List Nat) (idx : Nat), 0 < pits.length →
      (sowLoop pits idx s).2.sum = pits.sum + s := by
  induction s with
  | zero => intro pits idx _; rfl
  | succ k ih =>
    intro pits idx hlen
    simp only [sowLoop]
    rw [ih _ _ (by simpa using hlen),
      sum_set_add _ _ _ (Nat.mod_lt _ hlen)]
    omega

lemma sowLoop_last (s : Nat) (hs : 1 ≤ s) :
    ∀ (pits : List Nat) (idx : Nat),
      (sowLoop pits idx s).1 = (idx + s) % pits.length := by
  induction s with
  | zero => omega
  | succ k ih =>
    intro pits idx
    simp only [sowLoop]
    rcases Nat.eq_zero_or_pos k with hk | hk
    · subst hk
      simp [sowLoop]
    · rw [ih hk]
      rw [List.length_set]
      rw [Nat.mod_add_mod]
      ring_nf

lemma sowList_sum (pits : List Nat) (start : Nat) :
    (sowList pits start).2.sum = pits.sum := by
  unfold sowList
  rcases Nat.eq_zero_or_pos pits.length with h | h
  · rcases List.eq_nil_of_length_eq_zero h with rfl
    rfl
  · rw [sowLoop_sum _ _ _ (by simpa using h)]
    have := sum_set_zero pits start
    omega

lemma boardSowFrom_eq_sowList (pits : List Nat) (i : Nat) :
    (boardSowFrom pits i).2 = (sowList pits i).2 ∧
      (boardSowFrom pits i).1.1 = (sowList pits i).1 := by
  simp only [boardSowFrom, sowList]
  split_ifs with h
  · rw [h]
    exact ⟨rfl, rfl⟩
  · exact ⟨rfl, rfl⟩

lemma boardSowFrom_sum (pits : List Nat) (i : Nat) :
    (boardSowFrom pits i).2.sum = pits.sum := by
  rw [(boardSowFrom_eq_sowList pits i).1]
  exact sowList_sum pits i

/-! ### Capture lemmas -/

lemma getD_set_self_zero (l : List Nat) (i : Nat) : (l.set i 0).getD i 0 = 0 := by
  rcases Nat.lt_or_ge i l.length with h | h
  · exact getD_set_eq l i 0 h
  · exact List.getD_eq_default _ _ (by simpa using h)

lemma captureLoop_length (opp pps : Nat) :
    ∀ (fuel : Nat) (pits : List Nat) (i : Nat),
      (captureLoop opp pps fuel pits i).2.length = pits.length := by
  intro fuel
  induction fuel with
  | zero => intro pits i; rfl
  | succ f ih =>
    intro pits i
    simp only [captureLoop]
    split_ifs with h1 h2
    · simp
    · simp [ih]
    · rfl

lemma captureLoop_sum (opp pps : Nat) :
    ∀ (fuel : Nat) (pits : List Nat) (i : Nat),
      (captureLoop opp pps fuel pits i).1 + (captureLoop opp pps fuel pits i).2.sum
        = pits.sum := by
  intro fuel
  induction fuel with
  | zero => intro pits i; simp [captureLoop]
  | succ f ih =>
    intro pits i
    simp only [captureLoop]
    split_ifs with h1 h2
    · have := sum_set_zero pits i
      simp only []
      omega
    · have hq := ih (pits.set i 0) (backStep pits.length i)
      have := sum_set_zero pits i
      simp only []
      omega
    · simp

lemma captureOnList_length (pits : List Nat) (lastIdx mover pps : Nat) :
    (captureOnList pits lastIdx mover pps).2.length = pits.length := by
  unfold captureOnList
  split_ifs with h
  · exact captureLoop_length ..
  · rfl

lemma captureOnList_sum (pits : List Nat) (lastIdx mover pps : Nat) :
    (captureOnList pits lastIdx mover pps).1
      + (captureOnList pits lastIdx mover pps).2.sum = pits.sum := by
  unfold captureOnList
  split_ifs with h
  · exact captureLoop_sum ..
  · simp

/-! ### Stone conservation -/

/-- Total stones on the board: all pits plus both scores.  This is the
quantity the conservation invariant speaks about. -/
def stoneTotal (b : Board) : Nat := b.pits.sum + b.score0 + b.score1

lemma addScore_pits (b : Board) (p n : Nat) : (b.addScore p n).pits = b.pits := by
  unfold Board.addScore
  split_ifs <;> rfl

lemma score_addScore (b : Board) (p n : Nat) :
    (b.addScore p n).score p = b.score p + n := by
  unfold Board.addScore Board.score
  split_ifs <;> rfl

lemma stoneTotal_addScore (b : Board) (p n : Nat) :
    stoneTotal (b.addScore p n) = stoneTotal b + n := by
  unfold Board.addScore stoneTotal
  split_ifs <;> simp <;> omega

lemma sumIdx_set_notMem (l : List Nat) (idxs : List Nat) (i v : Nat)
    (h : i ∉ idxs) : sumIdx (l.set i v) idxs = sumIdx l idxs := by
  unfold sumIdx
  congr 1
  apply List.map_congr_left
  intro j hj
  exact getD_set_ne l i j v (fun hij => h (hij ▸ hj))

lemma foldl_set_zero_length (idxs : List Nat) :
    ∀ (l : List Nat), (idxs.foldl (fun a i => a.set i 0) l).length = l.length := by
  induction idxs with
  | nil => intro l; rfl
  | cons i rest ih =>
    intro l
    simpa [List.foldl_cons] using (ih (l.set i 0)).trans (List.length_set ..)

lemma foldl_set_zero_sum (idxs : List Nat) :
    ∀ (l : List Nat), idxs.Nodup →
      (idxs.foldl (fun a i => a.set i 0) l).sum + sumIdx l idxs = l.sum := by
  induction idxs with
  | nil => intro l _; simp [sumIdx]
  | cons i rest ih =>
    intro l hnd
    rcases List.nodup_cons.mp hnd with ⟨hi, hrest⟩
    have h1 := ih (l.set i 0) hrest
    rw [sumIdx_set_notMem l rest i 0 hi] at h1
    have h2 := sum_set_zero l i
    simp only [List.foldl_cons, sumIdx, List.map_cons, List.sum_cons]
    unfold sumIdx at h1
    omega

lemma foldl_set_zero_getD_notMem (idxs : List Nat) :
    ∀ (l : List Nat) (j : Nat), j ∉ idxs →
      (idxs.foldl (fun a i => a.set i 0) l).getD j 0 = l.getD j 0 := by
  induction idxs with
  | nil => intro l j _; rfl
  | cons i rest ih =>
    intro l j hj
    simp only [List.foldl_cons]
    rw [ih (l.set i 0) j (fun hm => hj (List.mem_cons_of_mem i hm))]
    exact getD_set_ne l i j 0 (fun hij => hj (hij ▸ List.mem_cons_self i rest))

lemma foldl_set_zero_getD_mem (idxs : List Nat) :
    ∀ (l : List Nat) (j : Nat), j ∈ idxs →
      (idxs.foldl (fun a i => a.set i 0) l).getD j 0 = 0 := by
  induction idxs with
  | nil => intro l j hj; simp at hj
  | cons i rest ih =>
    intro l j hj
    simp only [List.foldl_cons]
    by_cases hm : j ∈ rest
    · exact ih (l.set i 0) j hm
    · have hij : j = i := by
        rcases List.mem_cons.mp hj with h | h
        · exact h
        · exact absurd h hm
      subst hij
      rw [foldl_set_zero_getD_notMem rest (l.set j 0) j hm]
      exact getD_set_self_zero l j

lemma sumIdx_zero_mem (l : List Nat) (idxs : List Nat) (j : Nat)
    (hs : sumIdx l idxs = 0) (hj : j ∈ idxs) : l.getD j 0 = 0 := by
  unfold sumIdx at hs
  exact List.sum_eq_zero_iff.mp hs _ (List.mem_map_of_mem _ hj)

lemma nodup_playerPitIndices (b : Board) (p : Nat) :
    (b.playerPitIndices p).Nodup := by
  unfold Board.playerPitIndices
  split_ifs
  · exact List.nodup_range _
  · rw [List.range'_eq_map_range]
    exact (List.nodup_range _).map (fun a c h => by omega)

lemma applyMove_stoneTotal (b : Board) (p i : Nat) (so : Bool) :
    stoneTotal ((applyMove b p i so).2) = stoneTotal b := by
  unfold applyMove
  split_ifs with h1 h2 h3 h4 h5
  · rfl
  · rfl
  · rfl
  · rfl
  · rfl
  · rw [stoneTotal_addScore]
    unfold stoneTotal
    simp only []
    have hc := captureOnList_sum (boardSowFrom b.pits i).2 (boardSowFrom b.pits i).1.1
      p b.pitsPerSide
    have hs := boardSowFrom_sum b.pits i
    omega

lemma gameEndSweep_stoneTotal (b : Board) :
    stoneTotal (gameEndSweep b).2 = stoneTotal b := by
  simp only [gameEndSweep]
  have hsum0 := foldl_set_zero_sum (b.playerPitIndices 0) b.pits
    (nodup_playerPitIndices b 0)
  have hsum1 := foldl_set_zero_sum (b.playerPitIndices 1) b.pits
    (nodup_playerPitIndices b 1)
  unfold Board.totalFor at *
  split_ifs with h h0 h1 h1
  · omega
  · unfold stoneTotal
    simp only []
    omega
  · unfold stoneTotal
    simp only []
    omega
  · rfl
  · rfl

lemma applyMove_pitsPerSide (b : Board) (p i : Nat) (so : Bool) :
    ((applyMove b p i so).2).pitsPerSide = b.pitsPerSide ∧
      ((applyMove b p i so).2).initialStones = b.initialStones := by
  unfold applyMove Board.addScore
  split_ifs <;> exact ⟨rfl, rfl⟩

lemma gameEndSweep_pitsPerSide (b : Board) :
    ((gameEndSweep b).2).pitsPerSide = b.pitsPerSide ∧
      ((gameEndSweep b).2).initialStones = b.initialStones := by
  simp only [gameEndSweep]
  split_ifs <;> exact ⟨rfl, rfl⟩

/-! ### Behaviour of `apply_move` on failures and simulation -/

lemma applyMove_sim_board (b : Board) (p i : Nat) :
    (applyMove b p i true).2 = b := by
  unfold applyMove
  split_ifs with h1 h2 h3 h4 h5
  · rfl
  · rfl
  · rfl
  · rfl
  · rfl
  · exact absurd rfl h5

lemma applyMove_verdict_simulate (b : Board) (p i : Nat) :
    (applyMove b p i true).1 = (applyMove b p i false).1 := by
  unfold applyMove
  split_ifs <;> rfl

lemma applyMove_false_board (b : Board) (p i : Nat) (so : Bool)
    (h : (applyMove b p i so).1 = false) : (applyMove b p i so).2 = b := by
  unfold applyMove at h ⊢
  split_ifs at h ⊢ <;> rfl

lemma applyMove_fail_of_guard (b : Board) (p i : Nat) (so : Bool)
    (h : b.totalPits ≤ i ∨ b.pitOwner i ≠ p ∨ b.pits.getD i 0 = 0) :
    (applyMove b p i so).1 = false := by
  unfold applyMove
  split_ifs with h1 h2 h3 <;> try rfl
  all_goals
    rcases h with h | h | h
    · exact absurd h h1
    · exact absurd h h2
    · exact absurd h h3

lemma applyMove_fail_of_veto (b : Board) (p i : Nat) (so : Bool)
    (h : oppAfter b p i = 0 ∧ feedingAlt b p i = true) :
    (applyMove b p i so).1 = false := by
  unfold applyMove
  split_ifs with h1 h2 h3 <;> rfl

/-! ### Smart-move helper -/

lemma smartFold_zero (pid : Nat) (b : Board) :
    ∀ (rest : List Nat) (m0 : Nat),
      (rest.foldl
        (fun st m =>
          let temp := (applyMove b pid m true).2
          let gain : Int := (temp.score pid : Int) - (b.score pid : Int)
          if st.2 < gain then (m, gain) else st)
        (m0, (0 : Int))) = (m0, 0) := by
  intro rest
  induction rest with
  | nil => intro m0; rfl
  | cons y ys ih =>
    intro m0
    rw [List.foldl_cons]
    have hb : (applyMove b pid y true).2 = b := applyMove_sim_board ..
    simp only [hb, sub_self]
    rw [if_neg (lt_irrefl (0 : Int))]
    exact ih m0

/-! ### Claim theorems -/

/-- C2: every board reachable from `construct(pits_per_side, initial_stones)`
by `apply_move` and `game_end_sweep` calls satisfies
`sum(pits) + sum(scores) = total_pits * initial_stones`: stones are never
created or destroyed, only moved from pits into scores. -/
theorem stone_conservation (pps s : Nat) (b : Board) (h : Reached pps s b) :
    b.pits.sum + (b.score0 + b.score1) = b.totalPits * b.initialStones := by
  induction h with
  | construct =>
    simp [Board.construct, Board.totalPits, List.sum_replicate, smul_eq_mul]
  | move b p i so hb ih =>
    have ht := applyMove_stoneTotal b p i so
    have hf := applyMove_pitsPerSide b p i so
    unfold stoneTotal at ht
    unfold Board.totalPits at *
    rw [hf.1, hf.2]
    omega
  | sweep b hb ih =>
    have ht := gameEndSweep_stoneTotal b
    have hf := gameEndSweep_pitsPerSide b
    unfold stoneTotal at ht
    unfold Board.totalPits at *
    rw [hf.1, hf.2]
    omega

/-- Witness for C2: the board after one concrete move from the standard
opening still holds 48 stones across pits and scores. -/
theorem stone_conservation_witness :
    ((applyMove (Board.construct 6 4) 0 2 false).2).pits.sum
      + (((applyMove (Board.construct 6 4) 0 2 false).2).score0
        + ((applyMove (Board.construct 6 4) 0 2 false).2).score1) = 48 := by
  have h := stone_conservation 6 4 _
    (Reached.move (Board.construct 6 4) 0 2 false Reached.construct)
  exact h.trans (by decide)

/-- C5: `apply_move` mutates the board only on a committed success: the
simulate-only verdict matches the committed verdict, simulate-only never
changes the board, any failure leaves the board unchanged, and each of the
validation failures (index out of range, wrong owner, empty pit) and the
Grand Slam veto produces a failure without mutation. -/
theorem apply_move_fail_closed (b : Board) (p i : Nat) (so : Bool) :
    ((applyMove b p i true).1 = (applyMove b p i false).1) ∧
    ((applyMove b p i true).2 = b) ∧
    ((applyMove b p i so).1 = false → (applyMove b p i so).2 = b) ∧
    (b.totalPits ≤ i ∨ b.pitOwner i ≠ p ∨ b.pits.getD i 0 = 0 →
      (applyMove b p i so).1 = false ∧ (applyMove b p i so).2 = b) ∧
    (oppAfter b p i = 0 ∧ feedingAlt b p i = true →
      (applyMove b p i so).1 = false ∧ (applyMove b p i so).2 = b) := by
  refine ⟨applyMove_verdict_simulate b p i, applyMove_sim_board b p i,
    applyMove_false_board b p i so, fun h => ?_, fun h => ?_⟩
  · have h1 := applyMove_fail_of_guard b p i so h
    exact ⟨h1, applyMove_false_board b p i so h1⟩
  · have h1 := applyMove_fail_of_veto b p i so h
    exact ⟨h1, applyMove_false_board b p i so h1⟩

/-- Witness for C5: an out-of-range pit index is rejected without mutation. -/
theorem apply_move_fail_closed_witness :
    (applyMove (Board.construct 6 4) 0 99 false).1 = false ∧
      (applyMove (Board.construct 6 4) 0 99 false).2 = Board.construct 6 4 :=
  (apply_move_fail_closed (Board.construct 6 4) 0 99 false).2.2.2.1
    (Or.inl (by decide))

/-- C10: `_get_smart_move` always returns the first legal move: simulate-only
application never mutates the cloned board, so every candidate scores a gain
of 0, and the strict `>` comparison against the initial `-1` only ever fires
on the first candidate. -/
theorem smart_move_returns_first (pid : Nat) (b : Board) (legal : List Nat)
    (x : Nat) (xs : List Nat) (h : legal = x :: xs) :
    getSmartMove pid b legal = x := by
  subst h
  unfold getSmartMove
  rw [List.foldl_cons]
  have hb : (applyMove b pid x true).2 = b := applyMove_sim_board ..
  simp only [hb, sub_self, List.headD_cons]
  rw [if_pos (by norm_num : (-1 : Int) < 0)]
  rw [smartFold_zero]

/-- Witness for C10 at a concrete board and legal list. -/
theorem smart_move_returns_first_witness :
    getSmartMove 0 (Board.construct 6 4) [2, 5] = 2 :=
  smart_move_returns_first 0 (Board.construct 6 4) [2, 5] 2 [5] rfl

/-- C3 (code bug evidence): on `exC3` the CPU player 1 has legal moves
`[6, 11]`; move 11 captures 2 stones and move 6 captures none, yet
`_get_smart_move` returns 6, so the greedy tier does not maximise the
mover's immediate capture. -/
theorem smart_move_ignores_capture :
    legalMoves exC3 1 = [6, 11] ∧
    getSmartMove 1 exC3 (legalMoves exC3 1) = 6 ∧
    immediateCapture exC3 1 11 = 2 ∧
    immediateCapture exC3 1 6 = 0 := by decide

/-- C1 counterexample: on the spec's capture-chain example board,
`apply_move(board, 0, 5)` returns success, not the claimed Grand Slam
failure (sowing feeds pits 6 and 7, so the opponent is not emptied). -/
theorem capture_chain_example_fails : (applyMove exC1 0 5 false).1 = true := by
  decide

/-- C1 amended: on the example board, `apply_move(board, 0, 5)` succeeds and
captures the 3 stones of pit 8 (score 0 → 3, opponent keeps pits 6 and 7 at
one stone each), `apply_move(board, 0, 3)` succeeds with zero capture, and
both pits 3 and 5 are legal moves. -/
theorem capture_chain_example_amended :
    applyMove exC1 0 5 false
      = (true, ⟨6, 4, [0, 0, 0, 1, 0, 0, 1, 1, 0, 0, 0, 0], 3, 0⟩) ∧
    applyMove exC1 0 3 false
      = (true, ⟨6, 4, [0, 0, 0, 0, 1, 3, 0, 0, 2, 0, 0, 0], 0, 0⟩) ∧
    legalMoves exC1 0 = [3, 5] := by decide

/-! ### Sweep characterisation -/

lemma sum_eq_zero_of_getD (l : List Nat) (h : ∀ j, l.getD j 0 = 0) :
    l.sum = 0 := by
  induction l with
  | nil => rfl
  | cons a t ih =>
    have ha := h 0
    have ht : ∀ j, t.getD j 0 = 0 := fun j => h (j + 1)
    simp only [List.getD_cons_zero] at ha
    simp [ha, ih ht]

lemma playerPitIndices_zero (b : Board) :
    b.playerPitIndices 0 = List.range b.pitsPerSide := rfl

lemma playerPitIndices_one (b : Board) :
    b.playerPitIndices 1 = List.range' b.pitsPerSide b.pitsPerSide := rfl

lemma side_mem_split (b : Board) (hw : b.pits.length = b.totalPits) (j : Nat)
    (hj : j < b.pits.length) :
    j ∈ b.playerPitIndices 0 ∨ j ∈ b.playerPitIndices 1 := by
  rw [playerPitIndices_zero, playerPitIndices_one]
  unfold Board.totalPits at hw
  simp only [List.mem_range, List.mem_range'_1]
  omega

lemma side_disjoint (b : Board) (j : Nat) :
    j ∈ b.playerPitIndices 0 → j ∉ b.playerPitIndices 1 := by
  rw [playerPitIndices_zero, playerPitIndices_one]
  intro h0 h1
  rw [List.mem_range] at h0
  rw [List.mem_range'_1] at h1
  omega

lemma gameEndSweep_scores (b : Board)
    (h : b.totalFor 0 = 0 ∨ b.totalFor 1 = 0) :
    (gameEndSweep b).1 = true ∧
    ((gameEndSweep b).2).score0 = b.score0 + b.totalFor 0 ∧
    ((gameEndSweep b).2).score1 = b.score1 + b.totalFor 1 := by
  simp only [gameEndSweep]
  unfold Board.totalFor at *
  split_ifs with ht1 ht0 ht0
  · exfalso
    rcases h with h | h <;> omega
  · refine ⟨rfl, ?_, ?_⟩ <;> dsimp only <;> omega
  · refine ⟨rfl, ?_, ?_⟩ <;> dsimp only <;> omega
  · refine ⟨rfl, ?_, ?_⟩ <;> dsimp only <;> omega

lemma gameEndSweep_pits_zero (b : Board) (hw : b.pits.length = b.totalPits)
    (h : b.totalFor 0 = 0 ∨ b.totalFor 1 = 0) (j : Nat) :
    ((gameEndSweep b).2).pits.getD j 0 = 0 := by
  simp only [gameEndSweep]
  unfold Board.totalFor at *
  split_ifs with ht1 ht0 ht0
  · exfalso
    rcases h with h | h <;> omega
  · -- side 1 swept, side 0 already empty
    show (List.foldl (fun l i => l.set i 0) b.pits (b.playerPitIndices 1)).getD j 0 = 0
    by_cases hj : j < b.pits.length
    · rcases side_mem_split b hw j hj with hm | hm
      · rw [foldl_set_zero_getD_notMem _ _ _ (side_disjoint b j hm)]
        exact sumIdx_zero_mem _ _ _ (by omega) hm
      · exact foldl_set_zero_getD_mem _ _ _ hm
    · exact List.getD_eq_default _ _ (by rw [foldl_set_zero_length]; omega)
  · -- side 0 swept, side 1 already empty
    show (List.foldl (fun l i => l.set i 0) b.pits (b.playerPitIndices 0)).getD j 0 = 0
    by_cases hj : j < b.pits.length
    · rcases side_mem_split b hw j hj with hm | hm
      · exact foldl_set_zero_getD_mem _ _ _ hm
      · rw [foldl_set_zero_getD_notMem _ _ _ (fun hm0 => side_disjoint b j hm0 hm)]
        exact sumIdx_zero_mem _ _ _ (by omega) hm
    · exact List.getD_eq_default _ _ (by rw [foldl_set_zero_length]; omega)
  · -- both sides already empty
    show b.pits.getD j 0 = 0
    by_cases hj : j < b.pits.length
    · rcases side_mem_split b hw j hj with hm | hm
      · exact sumIdx_zero_mem _ _ _ (by omega) hm
      · exact sumIdx_zero_mem _ _ _ (by omega) hm
    · exact List.getD_eq_default _ _ (by omega)

/-- C9: whenever `is_empty_side` holds for some player, `game_end_sweep`
returns `true`, credits each player's remaining pit total to that player's
own score, zeroes every pit, and moves all remaining stones into the scores;
when both sides are non-empty it returns `false` and changes nothing. -/
theorem game_end_sweep_correct (b : Board) (hw : b.pits.length = b.totalPits) :
    ((b.isEmptySide 0 = true ∨ b.isEmptySide 1 = true) →
      (gameEndSweep b).1 = true ∧
      ((gameEndSweep b).2).score0 = b.score0 + b.totalFor 0 ∧
      ((gameEndSweep b).2).score1 = b.score1 + b.totalFor 1 ∧
      (∀ j, ((gameEndSweep b).2).pits.getD j 0 = 0) ∧
      ((gameEndSweep b).2).score0 + ((gameEndSweep b).2).score1
        = b.pits.sum + b.score0 + b.score1) ∧
    ((b.isEmptySide 0 = false ∧ b.isEmptySide 1 = false) →
      gameEndSweep b = (false, b)) := by
  constructor
  · intro hside
    have h : b.totalFor 0 = 0 ∨ b.totalFor 1 = 0 := by
      simpa [Board.isEmptySide] using hside
    have hz := fun j => gameEndSweep_pits_zero b hw h j
    have hs := gameEndSweep_scores b h
    refine ⟨hs.1, hs.2.1, hs.2.2, hz, ?_⟩
    have ht := gameEndSweep_stoneTotal b
    have hzero : ((gameEndSweep b).2).pits.sum = 0 := sum_eq_zero_of_getD _ hz
    unfold stoneTotal at ht
    omega
  · intro hne
    have h0 : b.totalFor 0 ≠ 0 := by simpa [Board.isEmptySide] using hne.1
    have h1 : b.totalFor 1 ≠ 0 := by simpa [Board.isEmptySide] using hne.2
    simp only [gameEndSweep]
    rw [if_neg (by tauto)]

/-- Witness for C9: a concrete ended board is swept with all stones in the
scores. -/
theorem game_end_sweep_correct_witness :
    (gameEndSweep ⟨6, 4, [0, 0, 0, 0, 0, 0, 1, 2, 0, 3, 0, 0], 5, 7⟩).1 = true ∧
    ((gameEndSweep ⟨6, 4, [0, 0, 0, 0, 0, 0, 1, 2, 0, 3, 0, 0], 5, 7⟩).2).score1 = 13 ∧
    ((gameEndSweep ⟨6, 4, [0, 0, 0, 0, 0, 0, 1, 2, 0, 3, 0, 0], 5, 7⟩).2).pits.getD 9 0 = 0 := by
  have h := (game_end_sweep_correct ⟨6, 4, [0, 0, 0, 0, 0, 0, 1, 2, 0, 3, 0, 0], 5, 7⟩
    (by decide)).1 (Or.inl (by decide))
  exact ⟨h.1, h.2.2.1.trans (by decide), h.2.2.2.1 9⟩

lemma legalMoves_nonempty (b : Board) (p i : Nat)
    (hi : i ∈ b.playerPitIndices p) (hpos : 0 < b.pits.getD i 0) :
    legalMoves b p ≠ [] := by
  have hc : i ∈ (b.playerPitIndices p).filter
      (fun i => decide (0 < b.pits.getD i 0)) :=
    List.mem_filter.mpr ⟨hi, by simpa using hpos⟩
  simp only [legalMoves]
  split_ifs with he
  · exact List.ne_nil_of_mem hc
  · intro hnil
    rw [hnil] at he
    exact he rfl

/-- C6: `legal_moves` is non-empty whenever the player owns a non-empty pit,
and a move is returned exactly when it is a non-empty own pit that either
leaves the opponent with stones or is played in a position where every
candidate move starves the opponent (the starvation exception). -/
theorem legal_moves_correct (b : Board) (p : Nat) (hp : p = 0 ∨ p = 1) :
    ((∃ i ∈ b.playerPitIndices p, 0 < b.pits.getD i 0) → legalMoves b p ≠ []) ∧
    (∀ m, m ∈ legalMoves b p ↔
      (m ∈ b.playerPitIndices p ∧ 0 < b.pits.getD m 0) ∧
      (0 < oppAfter b p m ∨
        ∀ c ∈ b.playerPitIndices p, 0 < b.pits.getD c 0 → oppAfter b p c = 0)) := by
  constructor
  · rintro ⟨i, hi, hpos⟩
    exact legalMoves_nonempty b p i hi hpos
  · intro m
    simp only [legalMoves]
    split_ifs with he
    · have hall : ∀ c ∈ (b.playerPitIndices p).filter
          (fun i => decide (0 < b.pits.getD i 0)), oppAfter b p c = 0 := by
        intro c hcm
        have := List.isEmpty_iff.mp he
        have hnot : c ∉ ((b.playerPitIndices p).filter
            (fun i => decide (0 < b.pits.getD i 0))).filter
            (fun pit => decide (0 < oppAfter b p pit)) := by
          rw [this]
          exact List.not_mem_nil c
        by_contra hzero
        exact hnot (List.mem_filter.mpr ⟨hcm, by simpa using Nat.pos_of_ne_zero hzero⟩)
      constructor
      · intro hm
        rcases List.mem_filter.mp hm with ⟨h1, h2⟩
        refine ⟨⟨h1, by simpa using h2⟩, Or.inr ?_⟩
        intro c hcmem hcpos
        exact hall c (List.mem_filter.mpr ⟨hcmem, by simpa using hcpos⟩)
      · rintro ⟨⟨h1, h2⟩, _⟩
        exact List.mem_filter.mpr ⟨h1, by simpa using h2⟩
    · constructor
      · intro hm
        rcases List.mem_filter.mp hm with ⟨h1, h2⟩
        rcases List.mem_filter.mp h1 with ⟨h3, h4⟩
        exact ⟨⟨h3, by simpa using h4⟩, Or.inl (by simpa using h2)⟩
      · rintro ⟨⟨h1, h2⟩, h3 | h3⟩
        · exact List.mem_filter.mpr
            ⟨List.mem_filter.mpr ⟨h1, by simpa using h2⟩, by simpa using h3⟩
        · exfalso
          have hne : ((b.playerPitIndices p).filter
              (fun i => decide (0 < b.pits.getD i 0))).filter
              (fun pit => decide (0 < oppAfter b p pit)) ≠ [] := by
            intro hnil
            rw [hnil] at he
            exact he rfl
          rcases List.exists_mem_of_ne_nil _ hne with ⟨x, hx⟩
          rcases List.mem_filter.mp hx with ⟨hx1, hx2⟩
          rcases List.mem_filter.mp hx1 with ⟨hx3, hx4⟩
          have := h3 x hx3 (by simpa using hx4)
          simp only [decide_eq_true_eq] at hx2
          omega

/-- Witness for C6: player 0 on the example board has a non-empty legal
move list. -/
theorem legal_moves_correct_witness : legalMoves exC1 0 ≠ [] :=
  (legal_moves_correct exC1 0 (Or.inl rfl)).1 ⟨3, by decide, by decide⟩

/-! ### Sowing deposit characterisation -/

lemma sowLoop_getD (s : Nat) :
    ∀ (pits : List Nat) (idx j : Nat), 0 < pits.length →
      (sowLoop pits idx s).2.getD j 0
        = pits.getD j 0
          + ∑ t ∈ Finset.range s,
              if (idx + t + 1) % pits.length = j then 1 else 0 := by
  induction s with
  | zero => intro pits idx j _; simp [sowLoop]
  | succ k ih =>
    intro pits idx j hlen
    simp only [sowLoop]
    rw [ih _ _ _ (by simpa using hlen)]
    simp only [List.length_set]
    have hidx2 : (idx + 1) % pits.length < pits.length := Nat.mod_lt _ hlen
    have hset : (pits.set ((idx + 1) % pits.length)
        (pits.getD ((idx + 1) % pits.length) 0 + 1)).getD j 0
        = pits.getD j 0 + (if (idx + 1) % pits.length = j then 1 else 0) := by
      by_cases hj : (idx + 1) % pits.length = j
      · subst hj
        rw [getD_set_eq _ _ _ hidx2, if_pos rfl]
      · rw [getD_set_ne _ _ _ _ hj, if_neg hj]
        exact (Nat.add_zero _).symm
    rw [hset]
    rw [Finset.sum_range_succ']
    have hsum : ∑ t ∈ Finset.range k,
        (if ((idx + 1) % pits.length + t + 1) % pits.length = j then 1 else 0)
        = ∑ t ∈ Finset.range k,
            (if (idx + (t + 1) + 1) % pits.length = j then 1 else 0) := by
      refine Finset.sum_congr rfl (fun t _ => ?_)
      have harg : ((idx + 1) % pits.length + t + 1) % pits.length
          = (idx + (t + 1) + 1) % pits.length := by
        conv_lhs => rw [Nat.add_assoc]
        rw [Nat.mod_add_mod]
        congr 1
        omega
      rw [harg]
    rw [hsum]
    simp only [Nat.add_zero]
    ring

/-- C8: `sow_from` on a pit holding `n >= 1` stones empties that pit,
deposits one stone into each of the `n` following positions in increasing
index order modulo `total_pits` (the source pit is not skipped, so a sow of
at least `total_pits` stones feeds the source pit itself), and returns the
index of the last pit written together with that pit's resulting count. -/
theorem sow_from_correct (pits : List Nat) (i n : Nat)
    (hn : pits.getD i 0 = n) (h1 : 1 ≤ n) (hi : i < pits.length) :
    (boardSowFrom pits i).1.1 = (i + n) % pits.length ∧
    (boardSowFrom pits i).1.2
      = (boardSowFrom pits i).2.getD ((i + n) % pits.length) 0 ∧
    (∀ j, (boardSowFrom pits i).2.getD j 0
      = (if j = i then 0 else pits.getD j 0)
        + ∑ t ∈ Finset.range n,
            if (i + t + 1) % pits.length = j then 1 else 0) ∧
    (pits.length ≤ n → 0 < (boardSowFrom pits i).2.getD i 0) := by
  have hlen : 0 < pits.length := Nat.lt_of_le_of_lt (Nat.zero_le i) hi
  have hne : pits.getD i 0 ≠ 0 := by omega
  have hlast : (sowLoop (pits.set i 0) i (pits.getD i 0)).1 = (i + n) % pits.length := by
    rw [sowLoop_last _ (by omega), List.length_set, hn]
  have hgetD : ∀ j, (sowLoop (pits.set i 0) i (pits.getD i 0)).2.getD j 0
      = (if j = i then 0 else pits.getD j 0)
        + ∑ t ∈ Finset.range n,
            if (i + t + 1) % pits.length = j then 1 else 0 := by
    intro j
    rw [sowLoop_getD _ _ _ _ (by simpa using hlen), List.length_set, hn]
    congr 1
    by_cases hj : j = i
    · subst hj
      rw [if_pos rfl]
      exact getD_set_eq _ _ _ hi
    · rw [getD_set_ne _ _ _ _ (fun hij => hj hij.symm), if_neg hj]
  have hb1 : (boardSowFrom pits i).1.1 = (sowLoop (pits.set i 0) i (pits.getD i 0)).1 := by
    unfold boardSowFrom
    rw [if_neg hne]
  have hb2 : (boardSowFrom pits i).2 = (sowLoop (pits.set i 0) i (pits.getD i 0)).2 := by
    unfold boardSowFrom
    rw [if_neg hne]
  have hb3 : (boardSowFrom pits i).1.2
      = (sowLoop (pits.set i 0) i (pits.getD i 0)).2.getD
          ((sowLoop (pits.set i 0) i (pits.getD i 0)).1) 0 := by
    unfold boardSowFrom
    rw [if_neg hne]
  refine ⟨hb1.trans hlast, ?_, fun j => (congrArg (fun l => l.getD j 0) hb2).trans (hgetD j), ?_⟩
  · rw [hb3, hb2, hlast]
  · intro hLn
    rw [hb2, hgetD i, if_pos rfl]
    have hterm : (if (i + (pits.length - 1) + 1) % pits.length = i then 1 else 0) = 1 := by
      rw [if_pos ?_]
      have harg : i + (pits.length - 1) + 1 = i + pits.length := by omega
      rw [harg, Nat.add_mod_right]
      exact Nat.mod_eq_of_lt hi
    have hmem : pits.length - 1 ∈ Finset.range n := Finset.mem_range.mpr (by omega)
    have hle0 := @Finset.single_le_sum Nat Nat _
      (fun t => if (i + t + 1) % pits.length = i then 1 else 0)
      (Finset.range n) (fun t _ => Nat.zero_le _) (pits.length - 1) hmem
    have hle : (if (i + (pits.length - 1) + 1) % pits.length = i then 1 else 0)
        ≤ ∑ t ∈ Finset.range n, if (i + t + 1) % pits.length = i then 1 else 0 := hle0
    omega

/-- Witness for C8: sowing 4 stones on a 2-pit board wraps around and feeds
the source pit. -/
theorem sow_from_correct_witness :
    (boardSowFrom [4, 4] 0).1.1 = 0 ∧ 0 < (boardSowFrom [4, 4] 0).2.getD 0 0 := by
  have h := sow_from_correct [4, 4] 0 4 (by decide) (by decide) (by decide)
  exact ⟨h.1.trans (by decide), h.2.2.2 (by decide)⟩

/-! ### Hard-tier branch condition -/

lemma getD_replicate (m x j : Nat) (hj : j < m) :
    (List.replicate m x).getD j 0 = x := by
  rw [List.getD_eq_getElem _ _ (by simpa using hj)]
  exact List.getElem_replicate ..

lemma hardDecision_eq_random (pid : Nat) (b : Board)
    (hleg : legalMoves b pid ≠ []) (hsum : b.pits.sum = b.totalPits * 4) :
    hardDecision pid b = HardDecision.randomOpening := by
  simp only [hardDecision]
  rw [if_neg (by simpa [List.isEmpty_iff] using hleg), if_pos hsum]

lemma hardDecision_ne_random (pid : Nat) (b : Board)
    (hsum : b.pits.sum ≠ b.totalPits * 4) :
    hardDecision pid b ≠ HardDecision.randomOpening := by
  simp only [hardDecision]
  split_ifs with h1
  · intro hcon
    exact HardDecision.noConfusion hcon
  · cases hm : (minimax pid 4 b XInt.negInf XInt.posInf true).2 <;> simp [hm]

lemma construct_sum (n s : Nat) :
    (Board.construct n s).pits.sum = (n * 2) * s := by
  simp [Board.construct, List.sum_replicate, smul_eq_mul]

lemma construct_legal_nonempty (n s : Nat) (hn : 0 < n) (hs : 0 < s) :
    legalMoves (Board.construct n s) 1 ≠ [] := by
  apply legalMoves_nonempty (Board.construct n s) 1 n
  · show n ∈ List.range' n n
    exact List.mem_range'_1.mpr ⟨le_refl n, by omega⟩
  · show 0 < (List.replicate (n * 2) s).getD n 0
    rw [getD_replicate _ _ _ (by omega)]
    exact hs

/-- C4 amended: the Hard tier takes the uniform-random branch exactly when
the pits hold `total_pits * 4` stones in total (the literal 4 is hardcoded,
independent of `initial_stones`): a fresh board with `initial_stones = 4`
triggers it, a fresh board with any other `initial_stones` does not, and on
any board with the wrong total the decision is the depth-4 minimax move,
falling back to uniform-random exactly when minimax returns no move. -/
theorem hard_tier_random_condition :
    (∀ n : Nat, 0 < n →
      hardDecision 1 (Board.construct n 4) = HardDecision.randomOpening) ∧
    (∀ s n : Nat, 0 < n → s ≠ 4 →
      hardDecision 1 (Board.construct n s) ≠ HardDecision.randomOpening) ∧
    (∀ (b : Board) (pid : Nat), legalMoves b pid ≠ [] →
      b.pits.sum = b.totalPits * 4 →
      hardDecision pid b = HardDecision.randomOpening) ∧
    (∀ (b : Board) (pid : Nat), b.pits.sum ≠ b.totalPits * 4 →
      ((∃ m, (minimax pid 4 b XInt.negInf XInt.posInf true).2 = some m ∧
          hardDecision pid b = HardDecision.search m) ∨
        ((minimax pid 4 b XInt.negInf XInt.posInf true).2 = none ∧
          hardDecision pid b = HardDecision.randomFallback) ∨
        (legalMoves b pid = [] ∧ hardDecision pid b = HardDecision.noMove))) := by
  refine ⟨?_, ?_, ?_, ?_⟩
  · intro n hn
    apply hardDecision_eq_random
    · exact construct_legal_nonempty n 4 hn (by omega)
    · rw [construct_sum]
      rfl
  · intro s n hn hs
    apply hardDecision_ne_random
    rw [construct_sum]
    show (n * 2) * s ≠ (Board.construct n s).totalPits * 4
    unfold Board.totalPits
    show (n * 2) * s ≠ (n * 2) * 4
    intro hcon
    exact hs (Nat.eq_of_mul_eq_mul_left (by omega) hcon)
  · intro b pid hleg hsum
    exact hardDecision_eq_random pid b hleg hsum
  · intro b pid hsum
    by_cases hleg : legalMoves b pid = []
    · right; right
      refine ⟨hleg, ?_⟩
      simp only [hardDecision]
      rw [if_pos (by simpa [List.isEmpty_iff] using hleg)]
    · simp only [hardDecision]
      rw [if_neg (by simpa [List.isEmpty_iff] using hleg), if_neg hsum]
      cases hm : (minimax pid 4 b XInt.negInf XInt.posInf true).2 with
      | none => right; left; exact ⟨rfl, rfl⟩
      | some m => left; exact ⟨m, rfl, rfl⟩

/-- C4 counterexample: after a capture-free first move the board is no
longer in its initial configuration, yet the Hard tier still takes the
uniform-random branch, because the pits still total `total_pits * 4`. -/
theorem hard_tier_random_not_initial :
    hardDecision 1 exC4 = HardDecision.randomOpening ∧ ¬ isInitialConfig exC4 := by
  constructor
  · decide
  · decide

/-- Witness for C4's amended statement at concrete boards. -/
theorem hard_tier_random_condition_witness :
    hardDecision 1 (Board.construct 6 4) = HardDecision.randomOpening ∧
    hardDecision 1 (Board.construct 6 5) ≠ HardDecision.randomOpening :=
  ⟨hard_tier_random_condition.1 6 (by decide),
    hard_tier_random_condition.2.1 5 6 (by decide) (by decide)⟩

/-! ### The capture chain walks backward through a maximal 2-3 run -/

lemma ownerOf_zero (pps : Nat) (h : 0 < pps) : ownerOf 0 pps = 0 :=
  if_pos h

lemma ownerOf_top (pps j : Nat) (h : pps ≤ j) : ownerOf j pps = 1 := by
  unfold ownerOf
  rw [if_neg (by omega)]

lemma backStep_zero (L : Nat) (h : 0 < L) : backStep L 0 = L - 1 := by
  unfold backStep
  rw [Nat.zero_add, Nat.mod_eq_of_lt (by omega)]

lemma backStep_of_pos (L i : Nat) (h1 : 1 ≤ i) (h2 : i < L) :
    backStep L i = i - 1 := by
  unfold backStep
  have harg : i + L - 1 = L + (i - 1) := by omega
  rw [harg, Nat.add_mod_left, Nat.mod_eq_of_lt (by omega)]

lemma captureLoop_spec (pps : Nat) (hpps : 0 < pps) :
    ∀ (fuel : Nat) (pits : List Nat) (i opp : Nat),
      pits.length = 2 * pps → i < pits.length → ownerOf i pps = opp →
      i < fuel →
      ∃ k, k ≤ i + 1 ∧
        (captureLoop opp pps fuel pits i).1
          = ∑ t ∈ Finset.range k, pits.getD (i - t) 0 ∧
        (∀ j, (captureLoop opp pps fuel pits i).2.getD j 0
          = if i + 1 - k ≤ j ∧ j ≤ i then 0 else pits.getD j 0) ∧
        (∀ t, t < k → ownerOf (i - t) pps = opp ∧
          (pits.getD (i - t) 0 = 2 ∨ pits.getD (i - t) 0 = 3)) ∧
        (k = 0 → ¬(pits.getD i 0 = 2 ∨ pits.getD i 0 = 3)) ∧
        (0 < k →
          ownerOf (backStep pits.length (i - (k - 1))) pps ≠ opp ∨
          ¬(pits.getD (backStep pits.length (i - (k - 1))) 0 = 2 ∨
            pits.getD (backStep pits.length (i - (k - 1))) 0 = 3)) := by
  intro fuel
  induction fuel with
  | zero => intro pits i opp _ _ _ hfuel; omega
  | succ f ih =>
    intro pits i opp hlen hi howner hfuel
    by_cases hstones : pits.getD i 0 = 2 ∨ pits.getD i 0 = 3
    · by_cases hnext : ownerOf (backStep pits.length i) pps ≠ opp
      · -- the pit behind the landing pit is not the opponent's: single capture
        have hres : captureLoop opp pps (f + 1) pits i
            = (pits.getD i 0, pits.set i 0) := by
          simp only [captureLoop]
          rw [if_pos hstones, if_pos hnext]
        refine ⟨1, by omega, ?_, ?_, ?_, ?_, ?_⟩
        · rw [hres, Finset.sum_range_one, Nat.sub_zero]
        · intro j
          rw [hres]
          by_cases hj : j = i
          · subst hj
            rw [if_pos (by omega)]
            exact getD_set_self_zero pits j
          · rw [if_neg (by omega)]
            exact getD_set_ne pits i j 0 (fun hij => hj hij.symm)
        · intro t ht
          have ht0 : t = 0 := by omega
          subst ht0
          rw [Nat.sub_zero]
          exact ⟨howner, hstones⟩
        · intro h10
          exact absurd h10 (by omega)
        · intro _
          rw [Nat.sub_self, Nat.sub_zero]
          exact Or.inl hnext
      · -- the chain continues backward
        have hCont : ownerOf (backStep pits.length i) pps = opp := not_not.mp hnext
        have hi1 : 1 ≤ i := by
          by_contra h0
          have hieq : i = 0 := by omega
          subst hieq
          have hopp0 : opp = 0 := by
            rw [← howner, ownerOf_zero pps hpps]
          rw [backStep_zero _ (by omega),
            ownerOf_top pps (pits.length - 1) (by omega)] at hCont
          omega
        have hback : backStep pits.length i = i - 1 :=
          backStep_of_pos _ _ hi1 hi
        have hqlen : (pits.set i 0).length = pits.length := List.length_set ..
        obtain ⟨kp, hkple, hcap, hresq, hok, hstop0, hstopPos⟩ :=
          ih (pits.set i 0) (i - 1) opp (by rw [hqlen, hlen])
            (by omega) (by rw [← hback]; exact hCont) (by omega)
        have hres2 : captureLoop opp pps (f + 1) pits i
            = (pits.getD i 0 + (captureLoop opp pps f (pits.set i 0) (i - 1)).1,
               (captureLoop opp pps f (pits.set i 0) (i - 1)).2) := by
          simp only [captureLoop]
          rw [if_pos hstones, hback, if_neg (fun hne => hne (hback ▸ hCont))]
        have hqgetD : ∀ t, t < kp →
            (pits.set i 0).getD (i - 1 - t) 0 = pits.getD (i - 1 - t) 0 :=
          fun t ht => getD_set_ne pits i (i - 1 - t) 0 (by omega)
        refine ⟨kp + 1, by omega, ?_, ?_, ?_, ?_, ?_⟩
        · rw [hres2]
          dsimp only
          rw [hcap, Finset.sum_range_succ']
          have hcong : ∑ t ∈ Finset.range kp, (pits.set i 0).getD (i - 1 - t) 0
              = ∑ t ∈ Finset.range kp, pits.getD (i - (t + 1)) 0 := by
            refine Finset.sum_congr rfl (fun t ht => ?_)
            rw [hqgetD t (Finset.mem_range.mp ht)]
            congr 1
            omega
          rw [hcong, Nat.sub_zero]
          omega
        · intro j
          rw [hres2]
          dsimp only
          rw [hresq j]
          by_cases hj : j = i
          · subst hj
            rw [if_neg (by omega), if_pos (by omega)]
            exact getD_set_self_zero pits j
          · by_cases hcond : i + 1 - (kp + 1) ≤ j ∧ j ≤ i
            · rw [if_pos (by omega), if_pos hcond]
            · rw [if_neg (by omega), if_neg hcond]
              exact getD_set_ne pits i j 0 (fun hij => hj hij.symm)
        · intro t ht
          cases t with
          | zero =>
            rw [Nat.sub_zero]
            exact ⟨howner, hstones⟩
          | succ tp =>
            have htp : tp < kp := by omega
            obtain ⟨ho, hv⟩ := hok tp htp
            rw [hqgetD tp htp] at hv
            have hidx : i - 1 - tp = i - (tp + 1) := by omega
            rw [hidx] at ho hv
            exact ⟨ho, hv⟩
        · intro hcon
          exact absurd hcon (by omega)
        · intro _
          have hkidx : kp + 1 - 1 = kp := by omega
          rw [hkidx]
          by_cases hik : i - kp = 0
          · -- the walk has reached index 0: the step wraps to the top pit,
            -- which belongs to player 1 while the opponent must be player 0
            have hkp1 : 1 ≤ kp := by omega
            obtain ⟨ho, _⟩ := hok (kp - 1) (by omega)
            have hidx : i - 1 - (kp - 1) = 0 := by omega
            rw [hidx, ownerOf_zero pps hpps] at ho
            rw [hik, backStep_zero _ (by omega),
              ownerOf_top pps (pits.length - 1) (by omega)]
            exact Or.inl (by omega)
          · have he : backStep pits.length (i - kp) = i - kp - 1 :=
              backStep_of_pos _ _ (by omega) (by omega)
            rcases Nat.eq_zero_or_pos kp with hkp0 | hkpPos
            · subst hkp0
              have hv := hstop0 rfl
              rw [he]
              right
              rw [Nat.sub_zero]
              rwa [getD_set_ne pits i (i - 1) 0 (by omega)] at hv
            · have hs := hstopPos hkpPos
              have hidx : i - 1 - (kp - 1) = i - kp := by omega
              rw [hidx] at hs
              rw [hqlen] at hs
              rcases hs with hs | hs
              · exact Or.inl hs
              · right
                rwa [he, getD_set_ne pits i (i - kp - 1) 0 (by omega),
                  ← he] at hs
    · -- the landing pit holds neither 2 nor 3 stones: no capture at all
      have hres : captureLoop opp pps (f + 1) pits i = (0, pits) := by
        simp only [captureLoop]
        rw [if_neg hstones]
      refine ⟨0, by omega, ?_, ?_, ?_, ?_, ?_⟩
      · rw [hres]
        simp
      · intro j
        rw [hres, if_neg (by omega)]
      · intro t ht
        exact absurd ht (by omega)
      · intro _
        exact hstones
      · intro hcon
        exact absurd hcon (by omega)

lemma captureOnList_spec (pits : List Nat) (mover pps last : Nat)
    (hpps : 0 < pps) (hlen : pits.length = 2 * pps) (hlast : last < pits.length) :
    ∃ k, k ≤ last + 1 ∧
      (captureOnList pits last mover pps).1
        = ∑ t ∈ Finset.range k, pits.getD (last - t) 0 ∧
      (∀ j, (captureOnList pits last mover pps).2.getD j 0
        = if last + 1 - k ≤ j ∧ j ≤ last then 0 else pits.getD j 0) ∧
      (∀ t, t < k → ownerOf (last - t) pps = opponent mover ∧
        (pits.getD (last - t) 0 = 2 ∨ pits.getD (last - t) 0 = 3)) ∧
      (k = 0 → ownerOf last pps ≠ opponent mover ∨
        ¬(pits.getD last 0 = 2 ∨ pits.getD last 0 = 3)) ∧
      (0 < k →
        ownerOf (backStep pits.length (last - (k - 1))) pps ≠ opponent mover ∨
        ¬(pits.getD (backStep pits.length (last - (k - 1))) 0 = 2 ∨
          pits.getD (backStep pits.length (last - (k - 1))) 0 = 3)) := by
  unfold captureOnList
  split_ifs with howner
  · obtain ⟨k, h1, h2, h3, h4, h5, h6⟩ :=
      captureLoop_spec pps hpps pits.length pits last (opponent mover)
        hlen hlast howner (by omega)
    exact ⟨k, h1, h2, h3, h4, fun hk => Or.inr (h5 hk), h6⟩
  · refine ⟨0, by omega, by simp, ?_, ?_, fun _ => Or.inl howner, ?_⟩
    · intro j
      rw [if_neg (by omega)]
    · intro t ht
      exact absurd ht (by omega)
    · intro h
      exact absurd h (by omega)

lemma boardSowFrom_length (pits : List Nat) (i : Nat) :
    (boardSowFrom pits i).2.length = pits.length := by
  simp only [boardSowFrom]
  split_ifs with h
  · exact List.length_set ..
  · rw [sowLoop_length]
    exact List.length_set ..

lemma boardSowFrom_last_lt (pits : List Nat) (i : Nat)
    (hne : pits.getD i 0 ≠ 0) (hlen : 0 < pits.length) :
    (boardSowFrom pits i).1.1 < pits.length := by
  simp only [boardSowFrom]
  rw [if_neg hne]
  dsimp only
  rw [sowLoop_last _ (by omega), List.length_set]
  exact Nat.mod_lt _ hlen

lemma applyMove_commit_eq (b : Board) (p m : Nat)
    (h1 : ¬b.totalPits ≤ m) (h2 : b.pitOwner m = p)
    (h3 : b.pits.getD m 0 ≠ 0)
    (h4 : ¬(oppAfter b p m = 0 ∧ feedingAlt b p m = true)) :
    applyMove b p m false
      = (true, Board.addScore
          { b with pits :=
              (captureOnList (sownPits b m) (landing b m) p b.pitsPerSide).2 }
          p (captureOnList (sownPits b m) (landing b m) p b.pitsPerSide).1) := by
  unfold applyMove landing sownPits
  rw [if_neg h1, if_neg (fun hne => hne h2), if_neg h3, if_neg h4,
    if_neg (by simp)]

lemma applyMove_success_parts (b : Board) (p m : Nat)
    (hsucc : (applyMove b p m false).1 = true) :
    ((applyMove b p m false).2).pits
      = (captureOnList (sownPits b m) (landing b m) p b.pitsPerSide).2 ∧
    ((applyMove b p m false).2).score p
      = b.score p + (captureOnList (sownPits b m) (landing b m) p b.pitsPerSide).1 ∧
    m < b.totalPits ∧ b.pitOwner m = p ∧ b.pits.getD m 0 ≠ 0 := by
  have hguards : ¬(b.totalPits ≤ m ∨ b.pitOwner m ≠ p ∨ b.pits.getD m 0 = 0) := by
    intro hg
    rw [applyMove_fail_of_guard b p m false hg] at hsucc
    exact Bool.false_ne_true hsucc
  push_neg at hguards
  obtain ⟨hg1, hg2, hg3⟩ := hguards
  have hveto : ¬(oppAfter b p m = 0 ∧ feedingAlt b p m = true) := by
    intro hv
    rw [applyMove_fail_of_veto b p m false hv] at hsucc
    exact Bool.false_ne_true hsucc
  have heq := applyMove_commit_eq b p m (by omega) hg2 hg3 hveto
  rw [heq]
  dsimp only
  refine ⟨?_, ?_, by omega, hg2, hg3⟩
  · rw [addScore_pits]
  · rw [score_addScore]
    rfl

/-- C7: a successful committed `apply_move` resolves captures along exactly
the maximal contiguous backward run of opponent pits from the landing index
of the sow in which every pit holds 2 or 3 stones: each run pit's count is
summed into the mover's score and the pit is zeroed, every pit outside the
run keeps its post-sow count, and the run ends exactly where the stepped-to
pit (one index backward modulo the board size) stops belonging to the
opponent or stops holding 2 or 3; in particular, on the simple-capture
example board, move 5 captures the 2 stones of index 6, credits them to
player 0, and zeroes index 6. -/
theorem apply_move_capture_chain :
    (∀ (b : Board) (p m : Nat),
      b.pits.length = 2 * b.pitsPerSide → 0 < b.pitsPerSide →
      (applyMove b p m false).1 = true →
      ∃ k, k ≤ landing b m + 1 ∧
        ((applyMove b p m false).2).score p
          = b.score p + ∑ t ∈ Finset.range k,
              (sownPits b m).getD (landing b m - t) 0 ∧
        (∀ j, ((applyMove b p m false).2).pits.getD j 0
          = if landing b m + 1 - k ≤ j ∧ j ≤ landing b m then 0
            else (sownPits b m).getD j 0) ∧
        (∀ t, t < k → ownerOf (landing b m - t) b.pitsPerSide = opponent p ∧
          ((sownPits b m).getD (landing b m - t) 0 = 2 ∨
            (sownPits b m).getD (landing b m - t) 0 = 3)) ∧
        (k = 0 → ownerOf (landing b m) b.pitsPerSide ≠ opponent p ∨
          ¬((sownPits b m).getD (landing b m) 0 = 2 ∨
            (sownPits b m).getD (landing b m) 0 = 3)) ∧
        (0 < k →
          ownerOf (backStep b.pits.length (landing b m - (k - 1))) b.pitsPerSide
              ≠ opponent p ∨
          ¬((sownPits b m).getD
              (backStep b.pits.length (landing b m - (k - 1))) 0 = 2 ∨
            (sownPits b m).getD
              (backStep b.pits.length (landing b m - (k - 1))) 0 = 3))) ∧
    applyMove exC7 0 5 false
      = (true, ⟨6, 4, [0, 0, 0, 0, 0, 0, 0, 2, 0, 0, 0, 0], 2, 0⟩) := by
  constructor
  · intro b p m hw hpps hsucc
    obtain ⟨hpits, hscore, hmlt, howner, hne⟩ := applyMove_success_parts b p m hsucc
    have hlen2 : (sownPits b m).length = b.pits.length := boardSowFrom_length ..
    have hlast : landing b m < b.pits.length :=
      boardSowFrom_last_lt b.pits m hne (by omega)
    obtain ⟨k, h1, h2, h3, h4, h5, h6⟩ :=
      captureOnList_spec (sownPits b m) p b.pitsPerSide (landing b m)
        hpps (by rw [hlen2, hw]) (by rw [hlen2]; exact hlast)
    rw [hlen2] at h6
    refine ⟨k, h1, ?_, ?_, h4, h5, h6⟩
    · rw [hscore, h2]
    · intro j
      rw [hpits]
      exact h3 j
  · decide

/-- Witness for C7: the capture-chain characterisation applied to the
simple-capture board. -/
theorem apply_move_capture_chain_witness :
    ∃ k, ((applyMove exC7 0 5 false).2).score 0
      = exC7.score 0 + ∑ t ∈ Finset.range k,
          (sownPits exC7 5).getD (landing exC7 5 - t) 0 := by
  obtain ⟨k, _, hsc, _⟩ :=
    apply_move_capture_chain.1 exC7 0 5 (by decide) (by decide) (by decide)
  exact ⟨k, hsc⟩

end Oware

